import Mathlib

/-!
Verification development for the bs4tag document builder
(src/bs4tag/simpledoc.py).

The Python code is shallowly embedded: strings that undergo character-level
processing are `List Char`, Python dicts are association lists with
update-in-place-or-append insertion (matching CPython's insertion-order
semantics), fallible operations return `Except PyError`, and the mutable
builder state (the BeautifulSoup tree plus the chain of open tag scopes)
is threaded explicitly as a `DocState` value.
-/

namespace Bs4tag

/-- Kinds of Python exceptions that the embedded code can raise, each with its
message.  `docRootError` models `SimpleDoc.DocumentRoot.DocumentRootError`
(which in the source is a subclass of both `DocError` and `AttributeError`). -/
inductive PyError where
  | valueError (msg : String)
  | typeError (msg : String)
  | attributeError (msg : String)
  | assertionError (msg : String)
  | docRootError (msg : String)
deriving DecidableEq, Repr

/-- Exception class of a raised `PyError`, message forgotten. -/
inductive ErrKind where
  | valueError
  | typeError
  | attributeError
  | assertionError
  | docRootError
deriving DecidableEq, Repr

/-- Classify a `PyError` by its class. -/
def PyError.kind : PyError → ErrKind
  | .valueError _ => .valueError
  | .typeError _ => .typeError
  | .attributeError _ => .attributeError
  | .assertionError _ => .assertionError
  | .docRootError _ => .docRootError

/-- Class of the error of a failed computation, `none` when it succeeded. -/
def errKind {α : Type} : Except PyError α → Option ErrKind
  | .error e => some e.kind
  | .ok _ => none

/-- Values an XML/HTML attribute can carry in the source's attribute dicts:
a string, an int (`attr_escape` stringifies it; floats are modelled by the
same constructor), the `ATTR_NO_VALUE = None` sentinel for valueless
attributes, or some other Python object on which `attr_escape` raises. -/
inductive AttrVal where
  | strV (s : List Char)
  | numV (n : Int)
  | noValue
  | badV
deriving DecidableEq, Repr

/-- Python values passed to `SimpleDoc.text` or to the constructor: a string,
a number (int; floats behave identically in every path modelled here),
`None`, or a list (only its length is ever observed, by `len`). -/
inductive PyVal where
  | str (s : List Char)
  | num (n : Int)
  | pyNone
  | pyList (len : Nat)
deriving DecidableEq, Repr

/-- Whether a `PyVal` is a Python `str`. -/
def PyVal.isStr : PyVal → Bool
  | .str _ => true
  | _ => false

/-- Whether a `PyVal` is a Python number (int or float). -/
def PyVal.isNum : PyVal → Bool
  | .num _ => true
  | _ => false

/-! ### Python dict, embedded as an association list

CPython dicts preserve insertion order; assigning to an existing key
overwrites its value in place, assigning to a fresh key appends. -/

/-- Keys of an association list, in order. -/
def keysOf {α : Type} (d : List (String × α)) : List String :=
  d.map Prod.fst

/-- Lookup in an association list (first match wins, as in a dict where keys
are unique). -/
def lookupA {α : Type} (d : List (String × α)) (k : String) : Option α :=
  match d with
  | [] => none
  | (k₀, v₀) :: rest => if k₀ = k then some v₀ else lookupA rest k

/-- Python dict assignment: overwrite the value in place when the key is
present (keys in a dict are unique, so replacing the first occurrence is the
general case), append the pair otherwise. -/
def dictInsert {α : Type} (d : List (String × α)) (k : String) (v : α) :
    List (String × α) :=
  match d with
  | [] => [(k, v)]
  | kv :: rest => if kv.1 = k then (k, v) :: rest else kv :: dictInsert rest k v

/-- Python dict `update`: insert every pair of the second dict in order. -/
def dictUpdate {α : Type} (d entries : List (String × α)) :
    List (String × α) :=
  entries.foldl (fun acc kv => dictInsert acc kv.1 kv.2) d

/-- Python `del d[k]` followed by swallowing `KeyError`: drop the key if
present. -/
def dictRemove {α : Type} (d : List (String × α)) (k : String) :
    List (String × α) :=
  d.filter (fun kv => kv.1 ≠ k)

theorem lookupA_dictInsert_self {α : Type} (d : List (String × α)) (k : String)
    (v : α) : lookupA (dictInsert d k v) k = some v := by
  induction d with
  | nil => simp [dictInsert, lookupA]
  | cons kv rest ih =>
    by_cases h : kv.1 = k
    · simp [dictInsert, lookupA, h]
    · simp [dictInsert, lookupA, h, ih]

theorem lookupA_dictRemove_self {α : Type} (d : List (String × α))
    (k : String) : lookupA (dictRemove d k) k = none := by
  induction d with
  | nil => rfl
  | cons kv rest ih =>
    by_cases h : kv.1 = k
    · simpa [dictRemove, h] using ih
    · simpa [dictRemove, lookupA, h] using ih

theorem mem_keysOf_dictInsert {α : Type} (d : List (String × α))
    (k m : String) (v : α) :
    m ∈ keysOf (dictInsert d k v) ↔ m ∈ keysOf d ∨ m = k := by
  induction d with
  | nil => simp [dictInsert, keysOf]
  | cons kv rest ih =>
    by_cases h : kv.1 = k
    · simp only [dictInsert, h, if_true, keysOf, List.map_cons, List.mem_cons]
      tauto
    · simp only [dictInsert, h, if_false, keysOf, List.map_cons, List.mem_cons]
      rw [show (List.map Prod.fst (dictInsert rest k v)) =
        keysOf (dictInsert rest k v) from rfl, ih]
      simp only [keysOf]
      tauto

theorem mem_keysOf_dictUpdate {α : Type} (d entries : List (String × α))
    (m : String) :
    m ∈ keysOf (dictUpdate d entries) ↔ m ∈ keysOf d ∨ m ∈ keysOf entries := by
  induction entries generalizing d with
  | nil => simp [dictUpdate, keysOf]
  | cons kv rest ih =>
    simp only [dictUpdate, List.foldl_cons] at *
    rw [ih (dictInsert d kv.1 kv.2)]
    rw [mem_keysOf_dictInsert]
    simp only [keysOf, List.map_cons, List.mem_cons]
    tauto

/-! ### Escaping helpers (html_escape, attr_escape, dict_to_attrs) -/

/-- Replacement of one character for a string, used to model Python's
chained `str.replace` calls character by character (the replacements used
by the source insert only fresh `&...;` sequences, so the chained left-to-right
replaces coincide with a single character-wise pass). -/
def replaceChar (pat : Char) (out : List Char) (l : List Char) : List Char :=
  l.flatMap (fun c => if c = pat then out else [c])

/-- Model of `html_escape` (src/bs4tag/simpledoc.py:508): numbers are
stringified, strings get the `& < >` entity escapes, anything else raises
`TypeError`.  Note: the call to it in `SimpleDoc.text` is commented out in
the source, so it participates in no operation modelled below. -/
def html_escape : PyVal → Except PyError (List Char)
  | .num n => .ok (toString n).data
  | .str s =>
      .ok (replaceChar '>' "&gt;".data
            (replaceChar '<' "&lt;".data
              (replaceChar '&' "&amp;".data s)))
  | _ => .error (.typeError
      "You can only insert a string, an int or a float inside a xml/html text node.")

/-- Model of `attr_escape` (src/bs4tag/simpledoc.py:521): numbers are
stringified, strings get the `& < \x22` entity escapes, anything else
raises `TypeError` (the `ATTR_NO_VALUE = None` sentinel is filtered out by
`dict_to_attrs` before this is reached). -/
def attr_escape : AttrVal → Except PyError (List Char)
  | .numV n => .ok (toString n).data
  | .strV s =>
      .ok (replaceChar '"' "&quot;".data
            (replaceChar '<' "&lt;".data
              (replaceChar '&' "&amp;".data s)))
  | _ => .error (.typeError
      "xml/html attributes should be passed as strings, ints or floats.")

/-- Model of `dict_to_attrs` (src/bs4tag/simpledoc.py:537): keep `None`
(the `ATTR_NO_VALUE` sentinel) as is, escape every other value. -/
def dict_to_attrs (d : List (String × AttrVal)) :
    Except PyError (List (String × AttrVal)) :=
  match d with
  | [] => .ok []
  | (k, v) :: rest => do
      let v' ← match v with
        | .noValue => .ok AttrVal.noValue
        | w => (attr_escape w).map .strV
      let rest' ← dict_to_attrs rest
      .ok ((k, v') :: rest')

/-! ### The `_attributes` helper (src/bs4tag/simpledoc.py:549)

A positional argument is either a tuple or a plain string; any other value
makes the scanning loop raise
`ValueError("Couldn't make a XML or HTML attribute/value pair out of ...")`.
Tuples of an arity other than 2 pass the scan but make the subsequent
`dict(lst)` conversion raise
`ValueError("dictionary update sequence element ... is required")`.
Keyword arguments are then merged in, with the key `klass` renamed to
`class`; positional pairs are inserted untouched. -/

/-- Positional argument to `tag` / `attr` / `stag`: a `(key, value)` pair,
a plain string (valueless attribute), a tuple whose arity is not 2, or a
value that is neither a tuple nor a string. -/
inductive PosArg where
  | pairA (k : String) (v : AttrVal)
  | strA (s : String)
  | badTupleA (arity : Nat)
  | otherA
deriving DecidableEq, Repr

/-- Item of the intermediate list `lst` built by the scanning loop of
`_attributes`: a key/value pair, or a tuple of the wrong arity that will
make the `dict(lst)` conversion fail. -/
inductive AttrItem where
  | pairItem (k : String) (v : AttrVal)
  | badItem (arity : Nat)
deriving DecidableEq, Repr

/-- Whether a positional argument is neither a `(key, value)` tuple nor a
plain string (the domain of claim C5). -/
def PosArg.malformed : PosArg → Bool
  | .pairA _ _ => false
  | .strA _ => false
  | .badTupleA _ => true
  | .otherA => true

/-- Scanning loop of `_attributes`: tuples and strings are collected into
`lst`, anything else raises `ValueError` on the spot. -/
def attrScan (args : List PosArg) : Except PyError (List AttrItem) :=
  match args with
  | [] => .ok []
  | .pairA k v :: rest => (attrScan rest).map (AttrItem.pairItem k v :: ·)
  | .strA s :: rest => (attrScan rest).map (AttrItem.pairItem s .noValue :: ·)
  | .badTupleA n :: rest => (attrScan rest).map (AttrItem.badItem n :: ·)
  | .otherA :: _ => .error (.valueError
      "Couldn't make a XML or HTML attribute/value pair out of the argument.")

/-- Python `dict(lst)` on the collected items: pairs are inserted in order,
a tuple of the wrong arity raises `ValueError` when it is reached. -/
def pyDictOfItems (items : List AttrItem) :
    Except PyError (List (String × AttrVal)) :=
  go items []
where
  /-- Sequential dict construction. -/
  go : List AttrItem → List (String × AttrVal) →
      Except PyError (List (String × AttrVal))
  | [], acc => .ok acc
  | .pairItem k v :: rest, acc => go rest (dictInsert acc k v)
  | .badItem n :: _, _ => .error (.valueError
      ("dictionary update sequence element has length " ++ toString n ++
        "; 2 is required"))

/-- Rename the reserved alias `klass` to the real attribute name `class`;
applied to keyword-argument keys only. -/
def klassToClass (k : String) : String :=
  if k = "klass" then "class" else k

/-- Model of `_attributes(args, kwargs)` (src/bs4tag/simpledoc.py:549):
scan the positional arguments, convert to a dict, then merge the keyword
arguments with `klass` renamed to `class`. -/
def pyAttributes (args : List PosArg) (kwargs : List (String × AttrVal)) :
    Except PyError (List (String × AttrVal)) := do
  let items ← attrScan args
  let d ← pyDictOfItems items
  .ok (dictUpdate d (kwargs.map (fun kv => (klassToClass kv.1, kv.2))))

/-- Pending element produced by `SimpleDoc.tag` (a `SimpleDoc.Tag` object
before its scope is entered): tag name plus the normalized attribute dict
that will be merged into the node on normal scope exit. -/
structure PendingTag where
  name : String
  attrs : List (String × AttrVal)
deriving DecidableEq, Repr

/-- Model of `SimpleDoc.tag` (src/bs4tag/simpledoc.py:108): normalize the
attribute arguments and return the pending `Tag` handle.  The argument
expression `_attributes(args, kwargs)` is evaluated before `Tag.__init__`
runs, so on a malformed argument the error propagates before any element
is created, and the document tree is never touched (`tag` itself performs
no tree mutation at all, only `Tag.__enter__` does). -/
def mkTag (name : String) (args : List PosArg)
    (kwargs : List (String × AttrVal)) : Except PyError PendingTag :=
  (pyAttributes args kwargs).map (fun attrs => ⟨name, attrs⟩)

/-! ### The BeautifulSoup tree and the builder state

The soup is a list of top-level nodes; an element holds its name, its
attribute dict, the `can_be_empty_element` flag and its children.  A node
inside the tree is addressed by a path of child indices, which is stable
because the builder only ever appends children. -/

/-- Node of the soup tree: an element, a `NavigableString` text node, or a
`CData` section. -/
inductive Node where
  | elem (name : String) (attrs : List (String × AttrVal))
      (canBeEmpty : Bool) (children : List Node)
  | textN (s : List Char)
  | cdataN (s : List Char)

/-- Whether a node is an element. -/
def Node.isElem : Node → Bool
  | .elem _ _ _ _ => true
  | _ => false

/-- Replace the element at one index of a list (out-of-range indices leave
the list unchanged). -/
def modifyIdx {α : Type} (l : List α) (i : Nat) (f : α → α) : List α :=
  match l, i with
  | [], _ => []
  | x :: rest, 0 => f x :: rest
  | x :: rest, n + 1 => x :: modifyIdx rest n f

/-- Children of the container addressed by a path: the empty path addresses
the soup's top-level list, and each index steps into one element's children.
Returns `none` when the path leaves the tree or crosses a non-element. -/
def childrenAt (ns : List Node) (p : List Nat) : Option (List Node) :=
  match p with
  | [] => some ns
  | i :: rest =>
      match ns[i]? with
      | some (.elem _ _ _ ch) => childrenAt ch rest
      | _ => none

/-- Append a node at the end of the child list of the container addressed by
the path (the soup's top-level list for the empty path). -/
def appendAt (ns : List Node) (p : List Nat) (n : Node) : List Node :=
  match p with
  | [] => ns ++ [n]
  | i :: rest =>
      modifyIdx ns i (fun nd =>
        match nd with
        | .elem nm a e ch => .elem nm a e (appendAt ch rest n)
        | other => other)

/-- Apply a function to the node addressed by a nonempty path. -/
def updateNodeAt (ns : List Node) (p : List Nat) (f : Node → Node) :
    List Node :=
  match p with
  | [] => ns
  | [i] => modifyIdx ns i f
  | i :: rest =>
      modifyIdx ns i (fun nd =>
        match nd with
        | .elem nm a e ch => .elem nm a e (updateNodeAt ch rest f)
        | other => other)

/-- Open tag scope (a `SimpleDoc.Tag` object that has been entered and not
yet exited): the path of its element in the tree (standing for the
`bs4_tag` reference) and its pending attribute dict (`self.attrs`), merged
into the element only on normal exit.  The `parent_tag` reference is the
next entry of the `DocState.openChain` list. -/
structure TagFrame where
  elemPath : List Nat
  pending : List (String × AttrVal)
deriving DecidableEq, Repr

/-- Builder state: the soup's top-level nodes, the chain of open tag scopes
from `current_tag` up to (but excluding) the `DocumentRoot` sentinel — an
empty chain means `current_tag` is the root — and the `nl2br` option. -/
structure DocState where
  root : List Node
  openChain : List TagFrame
  nl2br : Bool

/-- Path of the container that `current_tag._append` writes into: the
element of the innermost open scope, or the soup's top-level list. -/
def insertPath (st : DocState) : List Nat :=
  match st.openChain with
  | [] => []
  | fr :: _ => fr.elemPath

/-- Append one node at the current insertion point. -/
def appendNode (st : DocState) (n : Node) : DocState :=
  { st with root := appendAt st.root (insertPath st) n }

/-- Append several nodes, in order, at the current insertion point. -/
def appendNodes (st : DocState) (ns : List Node) : DocState :=
  ns.foldl appendNode st

/-- Model of `Tag.__enter__` (src/bs4tag/simpledoc.py:47): the element node
created for the tag (whose attributes stay empty until scope exit) is
appended to the children of the current insertion point, and the new scope
is pushed, making that element the new insertion point.  The parent
insertion point is captured as the rest of the chain. -/
def enterTag (pt : PendingTag) (st : DocState) : DocState :=
  let p := insertPath st
  let k := ((childrenAt st.root p).getD []).length
  { st with
    root := appendAt st.root p (.elem pt.name [] false []),
    openChain := ⟨p ++ [k], pt.attrs⟩ :: st.openChain }

/-- Merge the pending attributes into the element at the given path
(`self.bs4_tag.attrs.update(self.attrs)`). -/
def mergePendingAt (ns : List Node) (p : List Nat)
    (pending : List (String × AttrVal)) : List Node :=
  updateNodeAt ns p (fun nd =>
    match nd with
    | .elem nm a e ch => .elem nm (dictUpdate a pending) e ch
    | other => other)

/-- Model of `Tag.__exit__` (src/bs4tag/simpledoc.py:55) for the innermost
open scope (under `with`-statement discipline the scope being exited is
always the innermost one).  `err` is true when an exception is propagating
(`value is not None`).  The whole body of `__exit__` is guarded by
`if value is None:`, so on an error exit nothing happens at all; on a
normal exit the pending attributes (if any) are merged into the scope's
element and `current_tag` is reset to the parent captured at entry. -/
def exitTag (err : Bool) (st : DocState) : DocState :=
  if err then st
  else
    match st.openChain with
    | [] => st
    | fr :: rest =>
        { st with
          root := if fr.pending.isEmpty then st.root
                  else mergePendingAt st.root fr.elemPath fr.pending,
          openChain := rest }

/-- Model of `SimpleDoc.stag` (src/bs4tag/simpledoc.py:319): create the new
element, normalize and escape the attributes when any were supplied, flag
the element as allowed to be empty (self-closing) and append it at the
current insertion point.  The insertion point itself is left untouched.
On an attribute error the exception propagates and the state is unchanged. -/
def stagOp (name : String) (args : List PosArg)
    (kwargs : List (String × AttrVal)) (st : DocState) :
    Except PyError DocState := do
  let attrs ←
    if args.isEmpty ∧ kwargs.isEmpty then pure []
    else do
      let d ← pyAttributes args kwargs
      dict_to_attrs d
  .ok (appendNode st (.elem name attrs true []))

/-! ### Text writing and newline-to-break mode (src/bs4tag/simpledoc.py:142)

With `nl2br` set, each value is split by the compiled regex `\r?\n`
(leftmost match, the optional `\r` taken greedily); every segment before a
separator is appended as a text node followed by `self.stag('br')`, and the
last segment is appended as a trailing text node.  Without `nl2br`, the
value is appended as one text node.  In both modes the value is wrapped in
`NavigableString`, which (being a `str` subclass constructed with an
encoding argument for non-string inputs) raises `TypeError` for any value
that is not a string. -/

/-- Prepend a character to the first piece of a split (used by the split
functions below to extend the current segment). -/
def consHead (c : Char) (ps : List (List Char)) : List (List Char) :=
  match ps with
  | [] => [[c]]
  | p :: rest => (c :: p) :: rest

/-- Splitting on the regex `\r?\n`, leftmost match first: a `\r\n` pair or a
lone `\n` ends the current segment; every other character (including a `\r`
not followed by `\n`) extends it.  Mirrors `re.split(r'\r?\n', s)`. -/
def nlSplit : List Char → List (List Char)
  | [] => [[]]
  | '\r' :: '\n' :: rest => [] :: nlSplit rest
  | '\n' :: rest => [] :: nlSplit rest
  | c :: rest => consHead c (nlSplit rest)

/-- Separators consumed by `nlSplit`, in order (observer used to state that
`nlSplit` really splits on `\n` / `\r\n`). -/
def nlSeps : List Char → List (List Char)
  | [] => []
  | '\r' :: '\n' :: rest => ['\r', '\n'] :: nlSeps rest
  | '\n' :: rest => ['\n'] :: nlSeps rest
  | _ :: rest => nlSeps rest

/-- Interleave segments with the separators that stood between them. -/
def interleaveSegs : List (List Char) → List (List Char) → List Char
  | [], _ => []
  | [s], _ => s
  | s :: ss, [] => s ++ interleaveSegs ss []
  | s :: ss, p :: ps => s ++ p ++ interleaveSegs ss ps

/-- The self-closing line-break element produced by `self.stag('br')`. -/
def brNode : Node := .elem "br" [] true []

/-- Node sequence emitted by the `nl2br` loop of `SimpleDoc.text`: each
segment except the last becomes a text node followed by a line-break
element, the last segment becomes a trailing text node. -/
def emitSegs : List (List Char) → List Node
  | [] => []
  | [s] => [.textN s]
  | s :: rest => .textN s :: brNode :: emitSegs rest

/-- Model of the `NavigableString` constructor from the external bs4
library: a string is taken as is; any non-string value is handed to
`str.__new__(cls, value, DEFAULT_OUTPUT_ENCODING)`, which raises
`TypeError` because the value is not a bytes-like object. -/
def navigableString : PyVal → Except PyError (List Char)
  | .str s => .ok s
  | _ => .error (.typeError "decoding to str: need a bytes-like object")

/-- Nodes appended by `SimpleDoc.text` for one value: in `nl2br` mode the
value goes through the regex split (which raises `TypeError` for a
non-string value), otherwise it is wrapped in a single `NavigableString`. -/
def textValNodes (nl2br : Bool) (v : PyVal) : Except PyError (List Node) :=
  if nl2br then
    match v with
    | .str s => .ok (emitSegs (nlSplit s))
    | _ => .error (.typeError "expected string or bytes-like object")
  else
    (navigableString v).map (fun s => [.textN s])

/-- Model of `SimpleDoc.text` for a single value (`text(*strgs)` runs this
loop body once per value): compute the nodes and append them at the current
insertion point; on error nothing is appended and the state is unchanged
(the exception propagates). -/
def textOp (st : DocState) (v : PyVal) : Except PyError DocState :=
  (textValNodes st.nl2br v).map (appendNodes st)

/-! ### CDATA sections (src/bs4tag/simpledoc.py:345)

With `safe = True` the string is wrapped in a single CDATA section.
Otherwise it is split on the terminator `]]>`; the first piece (when there
are several) gets the suffix `]]`, the last the prefix `>`, middle pieces
both, and each decorated piece becomes one CDATA section. -/

/-- Greedy leftmost split on the literal `]]>`, mirroring
Python's `strg.split("]]>")`. -/
def splitSep : List Char → List (List Char)
  | ']' :: ']' :: '>' :: rest => [] :: splitSep rest
  | c :: rest => consHead c (splitSep rest)
  | [] => [[]]

/-- Whether a string contains the CDATA terminator `]]>` as a substring. -/
def hasSep : List Char → Bool
  | ']' :: ']' :: '>' :: _ => true
  | _ :: rest => hasSep rest
  | [] => false

/-- Decoration of the pieces after the first (`i == l - 1` gets the `>`
prefix, the middle pieces get both the prefix and the `]]` suffix). -/
def cdataRest : List (List Char) → List (List Char)
  | [] => []
  | [p] => [['>'] ++ p]
  | p :: ps => (['>'] ++ p ++ [']', ']']) :: cdataRest ps

/-- Contents of the CDATA sections emitted by `cdata(strg, safe=False)`, in
order: the pieces of the `]]>`-split of `strg`, decorated as in the
enumerate loop of the source (a lone piece stays bare, the first of several
gets the `]]` suffix, later pieces get the `>` prefix and, except for the
last, the `]]` suffix). -/
def cdataSections (s : List Char) : List (List Char) :=
  match splitSep s with
  | [] => []
  | [p] => [p]
  | p :: ps => (p ++ [']', ']']) :: cdataRest ps

/-- Model of `SimpleDoc.cdata`: append the CDATA section(s) at the current
insertion point. -/
def cdataOp (st : DocState) (s : List Char) (safe : Bool) : DocState :=
  if safe then appendNode st (.cdataN s)
  else appendNodes st ((cdataSections s).map Node.cdataN)

/-! ### Balanced builder programs

A well-formed build session is a sequence of operations in which every tag
scope that is entered is exited, normally, in properly nested order — which
is exactly what nesting `with tag(...)` blocks produces.  `Cmd` is the
syntax of such sessions; `runCmd` runs one against a builder state. -/

/-- Balanced builder program: leaf writes, sequencing, and a tag scope
wrapping a balanced body. -/
inductive Cmd where
  | skip
  | seqC (a b : Cmd)
  | textC (s : List Char)
  | stagC (name : String) (attrs : List (String × AttrVal))
  | cdataC (s : List Char) (safe : Bool)
  | tagC (pt : PendingTag) (body : Cmd)

/-- Run a balanced builder program: a tag scope enters, runs its body, and
exits normally (no error in flight). -/
def runCmd : Cmd → DocState → DocState
  | .skip, st => st
  | .seqC a b, st => runCmd b (runCmd a st)
  | .textC s, st =>
      appendNodes st (if st.nl2br then emitSegs (nlSplit s) else [.textN s])
  | .stagC name attrs, st => appendNode st (.elem name attrs true [])
  | .cdataC s safe, st => cdataOp st s safe
  | .tagC pt body, st => exitTag false (runCmd body (enterTag pt st))

/-! ### Tree lemmas -/

theorem modifyIdx_getElem {α : Type} (l : List α) (i : Nat) (f : α → α) :
    (modifyIdx l i f)[i]? = (l[i]?).map f := by
  induction l generalizing i with
  | nil => simp [modifyIdx]
  | cons x rest ih =>
    cases i with
    | zero => simp [modifyIdx]
    | succ n => simpa [modifyIdx] using ih n

theorem childrenAt_appendAt (p : List Nat) (ns : List Node) (n : Node)
    (cs : List Node) (h : childrenAt ns p = some cs) :
    childrenAt (appendAt ns p n) p = some (cs ++ [n]) := by
  induction p generalizing ns cs with
  | nil =>
    simp only [childrenAt, Option.some_inj] at h
    simp [childrenAt, appendAt, h]
  | cons i rest ih =>
    simp only [childrenAt] at h
    cases hni : ns[i]? with
    | none => rw [hni] at h; exact absurd h (by simp)
    | some nd =>
      rw [hni] at h
      cases nd with
      | elem nm a e ch =>
        simp only [appendAt, childrenAt, modifyIdx_getElem, hni, Option.map_some]
        exact ih ch cs h
      | textN s => exact absurd h (by simp)
      | cdataN s => exact absurd h (by simp)

theorem appendNode_openChain (st : DocState) (n : Node) :
    (appendNode st n).openChain = st.openChain := rfl

theorem appendNodes_openChain (ns : List Node) (st : DocState) :
    (appendNodes st ns).openChain = st.openChain := by
  induction ns generalizing st with
  | nil => rfl
  | cons n rest ih => simpa [appendNodes] using ih (appendNode st n)

theorem exitTag_false_openChain (st : DocState) :
    (exitTag false st).openChain = st.openChain.tail := by
  unfold exitTag
  cases h : st.openChain with
  | nil => simp [h]
  | cons fr rest => simp [h]

theorem runCmd_openChain (c : Cmd) (st : DocState) :
    (runCmd c st).openChain = st.openChain := by
  induction c generalizing st with
  | skip => rfl
  | seqC a b iha ihb => simp only [runCmd]; rw [ihb, iha]
  | textC s => simpa [runCmd] using appendNodes_openChain _ st
  | stagC name attrs => rfl
  | cdataC s safe =>
    cases safe with
    | false => simpa [runCmd, cdataOp] using appendNodes_openChain _ st
    | true => rfl
  | tagC pt body ih =>
    simp only [runCmd]
    rw [exitTag_false_openChain, ih (enterTag pt st)]
    rfl

/-! ### Claim C1: exit while an error is propagating

The claim says the insertion point is restored on an error exit just as on
a normal exit, with only the attribute merge skipped.  In the source the
restoration `self.doc.current_tag = self.parent_tag` sits inside
`if value is None:` together with the merge, so on an error exit nothing
is restored: the insertion point stays at the aborted scope's element. -/

/-- Concrete builder state with two nested open scopes (entered via
`with tag('a'):` then `with tag('b'):`), used to exhibit the behaviour of
an error exit. -/
def c1Doc : DocState := enterTag ⟨"b", []⟩ (enterTag ⟨"a", []⟩ ⟨[], [], false⟩)

/-- Claim C1 is false as stated: exiting the inner scope of `c1Doc` with an
error in flight leaves the insertion point at the inner element itself
(the two-scope chain is unchanged), not at the parent captured at entry
(the one-scope tail). -/
theorem exit_error_counterexample :
    (exitTag true c1Doc).openChain = c1Doc.openChain ∧
    c1Doc.openChain.length = 2 ∧
    (exitTag true c1Doc).openChain ≠ c1Doc.openChain.tail := by
  refine ⟨rfl, rfl, ?_⟩
  decide

/-- Claim C1, amended: when a tag scope exits with an error in flight, the
exit handler does nothing at all — the attribute merge is skipped and the
insertion point is not restored (the whole builder state is untouched, the
insertion point remaining at the aborted scope's element).  The insertion
point is restored, and the pending attributes merged, only on a normal
exit. -/
theorem exit_error_is_noop :
    (∀ st : DocState, exitTag true st = st) ∧
    (∀ (root : List Node) (fr : TagFrame) (rest : List TagFrame) (b : Bool),
      (exitTag false ⟨root, fr :: rest, b⟩).openChain = rest) := by
  constructor
  · intro st; rfl
  · intro root fr rest b; rfl

/-! ### Claim C2: stack balance of well-formed nested scopes -/

/-- Claim C2: running any balanced builder program (in particular a single
tag scope wrapping a balanced body, all exits normal) leaves the current
insertion point exactly where it was; and entering a tag scope appends the
new element as the last child of the current insertion point and makes it
the new insertion point (the parent insertion point being captured as the
rest of the chain). -/
theorem scope_balance :
    (∀ (c : Cmd) (st : DocState), (runCmd c st).openChain = st.openChain) ∧
    (∀ (pt : PendingTag) (st : DocState) (cs : List Node),
      childrenAt st.root (insertPath st) = some cs →
      (enterTag pt st).openChain =
        ⟨insertPath st ++ [cs.length], pt.attrs⟩ :: st.openChain ∧
      childrenAt (enterTag pt st).root (insertPath st) =
        some (cs ++ [.elem pt.name [] false []])) := by
  constructor
  · exact runCmd_openChain
  · intro pt st cs h
    constructor
    · simp [enterTag, h]
    · simpa [enterTag] using childrenAt_appendAt _ st.root _ cs h

/-- Witness for `scope_balance` at a concrete input: entering `div` on the
empty builder pushes the element at path `[0]` with the captured parent
chain empty, and the element appears as the sole top-level child. -/
theorem scope_balance_witness :
    (enterTag ⟨"div", []⟩ ⟨[], [], false⟩).openChain = [⟨[0], []⟩] ∧
    childrenAt (enterTag ⟨"div", []⟩ ⟨[], [], false⟩).root [] =
      some [.elem "div" [] false []] := by
  have h := scope_balance.2 ⟨"div", []⟩ ⟨[], [], false⟩ [] rfl
  exact ⟨h.1, h.2⟩

/-! ### Claim C9: the self-closing tag writer never moves the insertion point -/

/-- Claim C9: whenever `stag` succeeds, the chain of open scopes — hence the
current insertion point — is exactly what it was before the call, and the
new element, flagged as allowed to be empty (self-closing) and childless,
has been appended at the end of the current insertion point's children; a
write performed immediately afterwards therefore lands as its sibling,
never as its child. -/
theorem stag_keeps_insertion_point (name : String) (args : List PosArg)
    (kwargs : List (String × AttrVal)) (st st' : DocState)
    (h : stagOp name args kwargs st = .ok st') :
    st'.openChain = st.openChain ∧ insertPath st' = insertPath st ∧
    ∃ attrs,
      st'.root = appendAt st.root (insertPath st) (.elem name attrs true []) ∧
      ∀ cs, childrenAt st.root (insertPath st) = some cs →
        childrenAt st'.root (insertPath st) =
          some (cs ++ [.elem name attrs true []]) := by
  have key : ∃ attrs, st' = appendNode st (.elem name attrs true []) := by
    unfold stagOp at h
    by_cases hempty : args.isEmpty ∧ kwargs.isEmpty
    · rw [if_pos hempty] at h
      simp only [pure, Except.pure, Except.bind, bind] at h
      exact ⟨[], by cases h; rfl⟩
    · rw [if_neg hempty] at h
      simp only [bind, Except.bind] at h
      split at h
      · cases h
      · split at h
        · cases h
        · exact ⟨_, by cases h; rfl⟩
  obtain ⟨attrs, hst⟩ := key
  subst hst
  refine ⟨rfl, rfl, attrs, rfl, ?_⟩
  intro cs hcs
  exact childrenAt_appendAt _ st.root _ cs hcs

/-- Witness for `stag_keeps_insertion_point`: a concrete `stag('img')` call
on the empty builder succeeds, keeps the (root) insertion point, and puts
the flagged element at the top level. -/
theorem stag_keeps_insertion_point_witness :
    stagOp "img" [] [] ⟨[], [], false⟩ = .ok ⟨[.elem "img" [] true []], [], false⟩ ∧
    (DocState.mk [.elem "img" [] true []] [] false).openChain =
      (DocState.mk [] [] false).openChain := by
  refine ⟨rfl, ?_⟩
  exact (stag_keeps_insertion_point "img" [] [] ⟨[], [], false⟩
    ⟨[.elem "img" [] true []], [], false⟩ rfl).1

/-! ### Claims C5 and C7: attribute argument validation and the klass alias -/

/-- Whether an intermediate item is a wrong-arity tuple. -/
def AttrItem.isBad : AttrItem → Bool
  | .badItem _ => true
  | _ => false

/-- Keys contributed by the positional arguments: the key of each pair and
each plain string (which stands for a valueless attribute). -/
def posArgKeys (args : List PosArg) : List String :=
  args.filterMap fun a =>
    match a with
    | .pairA k _ => some k
    | .strA s => some s
    | _ => none

/-- Keys of the well-formed items collected by the scanning loop. -/
def pairKeys (items : List AttrItem) : List String :=
  items.filterMap fun it =>
    match it with
    | .pairItem k _ => some k
    | _ => none

theorem attrScan_error_shape (args : List PosArg) (e : PyError)
    (h : attrScan args = .error e) : ∃ m, e = .valueError m := by
  induction args with
  | nil => cases h
  | cons a rest ih =>
    cases a with
    | pairA k v =>
      simp only [attrScan] at h
      cases hr : attrScan rest with
      | error e₀ =>
        rw [hr] at h
        simp only [Except.map] at h
        cases h
        exact ih hr
      | ok items => rw [hr] at h; simp [Except.map] at h
    | strA s =>
      simp only [attrScan] at h
      cases hr : attrScan rest with
      | error e₀ =>
        rw [hr] at h
        simp only [Except.map] at h
        cases h
        exact ih hr
      | ok items => rw [hr] at h; simp [Except.map] at h
    | badTupleA n =>
      simp only [attrScan] at h
      cases hr : attrScan rest with
      | error e₀ =>
        rw [hr] at h
        simp only [Except.map] at h
        cases h
        exact ih hr
      | ok items => rw [hr] at h; simp [Except.map] at h
    | otherA =>
      simp only [attrScan] at h
      cases h
      exact ⟨_, rfl⟩

theorem attrScan_malformed (args : List PosArg)
    (h : args.any PosArg.malformed = true) :
    (∃ m, attrScan args = .error (.valueError m)) ∨
    (∃ items, attrScan args = .ok items ∧ items.any AttrItem.isBad = true) := by
  induction args with
  | nil => simp at h
  | cons a rest ih =>
    cases a with
    | pairA k v =>
      simp only [List.any_cons, PosArg.malformed, Bool.false_or] at h
      rcases ih h with ⟨m, hm⟩ | ⟨items, hit, hbad⟩
      · exact .inl ⟨m, by simp [attrScan, hm, Except.map]⟩
      · exact .inr ⟨AttrItem.pairItem k v :: items,
          by simp [attrScan, hit, Except.map],
          by simp [AttrItem.isBad, hbad]⟩
    | strA s =>
      simp only [List.any_cons, PosArg.malformed, Bool.false_or] at h
      rcases ih h with ⟨m, hm⟩ | ⟨items, hit, hbad⟩
      · exact .inl ⟨m, by simp [attrScan, hm, Except.map]⟩
      · exact .inr ⟨AttrItem.pairItem s .noValue :: items,
          by simp [attrScan, hit, Except.map],
          by simp [AttrItem.isBad, hbad]⟩
    | badTupleA n =>
      cases hr : attrScan rest with
      | error e =>
        obtain ⟨m, hm⟩ := attrScan_error_shape rest e hr
        exact .inl ⟨m, by simp [attrScan, hr, hm, Except.map]⟩
      | ok items =>
        exact .inr ⟨AttrItem.badItem n :: items,
          by simp [attrScan, hr, Except.map],
          by simp [AttrItem.isBad]⟩
    | otherA => exact .inl ⟨_, rfl⟩

theorem pyDictGo_bad (items : List AttrItem)
    (hbad : items.any AttrItem.isBad = true)
    (acc : List (String × AttrVal)) :
    ∃ m, pyDictOfItems.go items acc = .error (.valueError m) := by
  induction items generalizing acc with
  | nil => simp at hbad
  | cons it rest ih =>
    cases it with
    | pairItem k v =>
      simp only [List.any_cons, AttrItem.isBad, Bool.false_or] at hbad
      exact ih hbad (dictInsert acc k v)
    | badItem n => exact ⟨_, rfl⟩

/-- Claim C5, amended: a positional attribute argument that is neither a
pair nor a plain string makes the tag-opening operation fail with a
`ValueError`-kind (invalid-argument) error — not an `AttributeError`-kind
one — raised inside `_attributes` before any element is created or the
tree is modified (`tag` performs no tree mutation; the error propagates
before `Tag.__init__` runs). -/
theorem malformed_attr_arg_raises (name : String) (args : List PosArg)
    (kwargs : List (String × AttrVal))
    (h : args.any PosArg.malformed = true) :
    ∃ m, mkTag name args kwargs = .error (.valueError m) := by
  rcases attrScan_malformed args h with ⟨m, hm⟩ | ⟨items, hit, hbad⟩
  · exact ⟨m, by simp [mkTag, pyAttributes, bind, Except.bind, hm, Except.map]⟩
  · obtain ⟨m, hm⟩ := pyDictGo_bad items hbad []
    exact ⟨m, by simp [mkTag, pyAttributes, bind, Except.bind, hit,
      pyDictOfItems, hm, Except.map]⟩

/-- Witness for `malformed_attr_arg_raises`: `tag('div', None)` (a
positional argument that is neither a tuple nor a string) fails with a
`ValueError`-kind error. -/
theorem malformed_attr_arg_raises_witness :
    ([PosArg.otherA].any PosArg.malformed = true) ∧
    ∃ m, mkTag "div" [PosArg.otherA] [] = .error (.valueError m) :=
  ⟨by decide, malformed_attr_arg_raises "div" [PosArg.otherA] [] (by decide)⟩

/-- Claim C5 is false as stated: at the concrete malformed call
`tag('div', None)` the raised error is of `ValueError` class (Python's
invalid-argument error), not of `AttributeError` class. -/
theorem malformed_attr_arg_kind_counterexample :
    errKind (mkTag "div" [PosArg.otherA] []) = some ErrKind.valueError ∧
    ErrKind.valueError ≠ ErrKind.attributeError := by
  exact ⟨rfl, by decide⟩

theorem attrScan_ok_keys (args : List PosArg) (items : List AttrItem)
    (h : attrScan args = .ok items) : pairKeys items = posArgKeys args := by
  induction args generalizing items with
  | nil => cases h; rfl
  | cons a rest ih =>
    cases a with
    | pairA k v =>
      simp only [attrScan] at h
      cases hr : attrScan rest with
      | error e => rw [hr] at h; cases h
      | ok its =>
        rw [hr] at h
        cases h
        simp [pairKeys, posArgKeys, List.filterMap_cons]
        exact ih its hr
    | strA s =>
      simp only [attrScan] at h
      cases hr : attrScan rest with
      | error e => rw [hr] at h; cases h
      | ok its =>
        rw [hr] at h
        cases h
        simp [pairKeys, posArgKeys, List.filterMap_cons]
        exact ih its hr
    | badTupleA n =>
      simp only [attrScan] at h
      cases hr : attrScan rest with
      | error e => rw [hr] at h; cases h
      | ok its =>
        rw [hr] at h
        cases h
        simp [pairKeys, posArgKeys, List.filterMap_cons]
        exact ih its hr
    | otherA => cases h

theorem pyDictGo_keys (items : List AttrItem) (acc d : List (String × AttrVal))
    (m : String) (h : pyDictOfItems.go items acc = .ok d) :
    m ∈ keysOf d ↔ m ∈ keysOf acc ∨ m ∈ pairKeys items := by
  induction items generalizing acc with
  | nil => cases h; simp [pairKeys]
  | cons it rest ih =>
    cases it with
    | pairItem k v =>
      have := ih (dictInsert acc k v) h
      rw [this, mem_keysOf_dictInsert]
      simp only [pairKeys, List.filterMap_cons]
      simp only [List.mem_cons]
      constructor
      · rintro ((hm | hm) | hm)
        · exact .inl hm
        · exact .inr (.inl hm)
        · exact .inr (.inr hm)
      · rintro (hm | hm | hm)
        · exact .inl (.inl hm)
        · exact .inl (.inr hm)
        · exact .inr hm
    | badItem n => cases h

theorem klassToClass_ne_klass (k : String) : klassToClass k ≠ "klass" := by
  unfold klassToClass
  by_cases h : k = "klass"
  · rw [if_pos h]; decide
  · rw [if_neg h]; exact h

/-- Claim C7, amended: the alias applies to keyword arguments only.  When
`_attributes` succeeds, a `klass` keyword argument always yields a `class`
key in the result, and the result contains a literal `klass` key exactly
when some positional argument (a `('klass', value)` pair or the bare
string `'klass'`) supplied it — keyword arguments can never produce one. -/
theorem klass_alias (args : List PosArg) (kwargs d : List (String × AttrVal))
    (h : pyAttributes args kwargs = .ok d) :
    ("klass" ∈ keysOf kwargs → "class" ∈ keysOf d) ∧
    ("klass" ∈ keysOf d ↔ "klass" ∈ posArgKeys args) := by
  unfold pyAttributes at h
  simp only [bind, Except.bind] at h
  cases hscan : attrScan args with
  | error e => rw [hscan] at h; cases h
  | ok items =>
    rw [hscan] at h
    dsimp only at h
    cases hdict : pyDictOfItems items with
    | error e => rw [hdict] at h; cases h
    | ok d0 =>
      rw [hdict] at h
      dsimp only at h
      cases h
      have hmapped : ∀ m : String,
          m ∈ keysOf (kwargs.map fun kv => (klassToClass kv.1, kv.2)) ↔
          ∃ k ∈ keysOf kwargs, klassToClass k = m := by
        intro m
        simp only [keysOf, List.map_map, List.mem_map, Function.comp]
        constructor
        · rintro ⟨kv, hkv, hm⟩
          exact ⟨kv.1, ⟨kv, hkv, rfl⟩, hm⟩
        · rintro ⟨k, ⟨kv, hkv, hk1⟩, hm⟩
          exact ⟨kv, hkv, by rw [hk1]; exact hm⟩
      have hgo : pyDictOfItems.go items [] = .ok d0 := hdict
      have hd0 : ∀ m : String, m ∈ keysOf d0 ↔ m ∈ pairKeys items := by
        intro m
        rw [pyDictGo_keys items [] d0 m hgo]
        simp [keysOf]
      constructor
      · intro hkw
        rw [mem_keysOf_dictUpdate, hmapped]
        exact .inr ⟨"klass", hkw, rfl⟩
      · rw [mem_keysOf_dictUpdate, hmapped, hd0,
          attrScan_ok_keys args items hscan]
        constructor
        · rintro (hm | ⟨k, _, hk⟩)
          · exact hm
          · exact absurd hk (klassToClass_ne_klass k)
        · exact .inl

/-- Witness for `klass_alias`: the keyword call `tag('div', klass='a')`
produces a `class` attribute. -/
theorem klass_alias_witness :
    pyAttributes [] [("klass", AttrVal.strV ['a'])] =
      .ok [("class", AttrVal.strV ['a'])] ∧
    "class" ∈ keysOf [("class", AttrVal.strV ['a'])] :=
  ⟨rfl, (klass_alias [] [("klass", AttrVal.strV ['a'])]
    [("class", AttrVal.strV ['a'])] rfl).1 (by decide)⟩

/-- Claim C7 is false as stated: the positional pair `('klass', 'x')` is
inserted literally, producing an attribute named `klass` and no `class`
attribute at all. -/
theorem klass_positional_counterexample :
    (pyAttributes [.pairA "klass" (.strV ['x'])] []).map
      (fun d => (lookupA d "klass", lookupA d "class")) =
    .ok (some (AttrVal.strV ['x']), none) := by
  rfl

/-! ### Claim C10: the constructor and positional arguments

Model of `SimpleDoc.__init__` (src/bs4tag/simpledoc.py:90).  The method
first asserts that the unsupported `stag_end` option is absent, computes
the `features` value (the second positional argument when two or more were
given, else the `features` keyword, with `None` or an empty value replaced
by `"lxml"`), and then tries to write the normalized value back with
`args[1] = self.features` — but `args` is the `*args` tuple, which is
immutable, so that item assignment raises `TypeError` before
`BeautifulSoup(*args, **kwargs)` is ever called. -/

/-- Python `len`: defined for strings and lists, raises `TypeError` for
numbers and `None`. -/
def pyLen : PyVal → Except PyError Nat
  | .str s => .ok s.length
  | .pyList n => .ok n
  | .num _ => .error (.typeError "object of type int has no len()")
  | .pyNone => .error (.typeError "object of type NoneType has no len()")

/-- Arguments that `__init__` would hand to the `BeautifulSoup`
constructor, had it got that far (the external parser call itself is not
modelled; reaching it is what "constructing the document" means). -/
structure BSCall where
  args : List PyVal
  kwargs : List (String × PyVal)
  nl2br : Bool
deriving DecidableEq, Repr

/-- Model of `SimpleDoc.__init__(*args, nl2br=False, **kwargs)`
(src/bs4tag/simpledoc.py:90). -/
def simpleDocInit (args : List PyVal) (nl2br : Bool)
    (kwargs : List (String × PyVal)) : Except PyError BSCall := do
  if (lookupA kwargs "stag_end").isSome then
    throw (.assertionError "stag_end not supported by bs4tag (or BS4)")
  let raw := if 1 < args.length then args.getD 1 .pyNone
             else (lookupA kwargs "features").getD .pyNone
  let features ←
    match raw with
    | .pyNone => pure (PyVal.str "lxml".data)
    | v => do
        let l ← pyLen v
        pure (if l = 0 then PyVal.str "lxml".data else v)
  if 1 < args.length then
    throw (.typeError "tuple object does not support item assignment")
  else
    .ok ⟨args, dictInsert kwargs "features" features, nl2br⟩

/-- Claim C10, amended: a constructor call with two or more positional
arguments raises a `TypeError` before the document is constructed —
provided the unsupported `stag_end` keyword is absent, since that trips the
earlier assertion (an `AssertionError`) first — and consequently no
successful construction ever sees more than one positional argument, so
the parser dialect can only be selected via the `features` keyword. -/
theorem init_two_positional_args_raises :
    (∀ (args : List PyVal) (nl2br : Bool) (kwargs : List (String × PyVal)),
      2 ≤ args.length → lookupA kwargs "stag_end" = none →
      ∃ m, simpleDocInit args nl2br kwargs = .error (.typeError m)) ∧
    (∀ (args : List PyVal) (nl2br : Bool) (kwargs : List (String × PyVal))
      (call : BSCall),
      simpleDocInit args nl2br kwargs = .ok call → args.length ≤ 1) := by
  constructor
  · intro args nl2br kwargs hlen hse
    have hgt : 1 < args.length := hlen
    unfold simpleDocInit
    rw [hse]
    simp only [Option.isSome_none, Bool.false_eq_true, if_false, hgt, if_true,
      bind, Except.bind]
    cases hraw : args.getD 1 .pyNone with
    | pyNone => exact ⟨_, rfl⟩
    | str s =>
      by_cases h0 : s.length = 0 <;> simp [pyLen, pure, Except.pure, h0] <;>
        exact ⟨_, rfl⟩
    | num n => exact ⟨_, rfl⟩
    | pyList k =>
      by_cases h0 : k = 0 <;> simp [pyLen, pure, Except.pure, h0] <;>
        exact ⟨_, rfl⟩
  · intro args nl2br kwargs call h
    by_contra hle
    push_neg at hle
    unfold simpleDocInit at h
    by_cases hse : (lookupA kwargs "stag_end").isSome
    · simp [hse, throw, throwThe, MonadExceptOf.throw, bind, Except.bind] at h
    · simp only [hse, Bool.false_eq_true, if_false, bind, Except.bind, pure,
        Except.pure] at h
      generalize hraw : (if 1 < args.length then args.getD 1 PyVal.pyNone
        else (lookupA kwargs "features").getD PyVal.pyNone) = raw at h
      cases raw with
      | pyNone =>
        rw [if_pos hle] at h
        simp [throw, throwThe, MonadExceptOf.throw] at h
      | str s =>
        simp only [pyLen] at h
        rw [if_pos hle] at h
        simp [throw, throwThe, MonadExceptOf.throw] at h
      | num n =>
        simp only [pyLen] at h
        cases h
      | pyList k =>
        simp only [pyLen] at h
        rw [if_pos hle] at h
        simp [throw, throwThe, MonadExceptOf.throw] at h

/-- Witness for `init_two_positional_args_raises`: the concrete call
`SimpleDoc('<b></b>', 'html.parser')` fails with a `TypeError`. -/
theorem init_two_positional_args_raises_witness :
    2 ≤ ([PyVal.str "<b></b>".data, PyVal.str "html.parser".data]).length ∧
    ∃ m, simpleDocInit [PyVal.str "<b></b>".data, PyVal.str "html.parser".data]
      false [] = .error (.typeError m) :=
  ⟨by decide, init_two_positional_args_raises.1
    [PyVal.str "<b></b>".data, PyVal.str "html.parser".data] false [] (by decide) rfl⟩

/-- Claim C10 is false as stated (in one corner): a call with two
positional arguments that also passes the unsupported `stag_end` keyword
fails the assertion first, raising an `AssertionError`, not a `TypeError`. -/
theorem init_stag_end_counterexample :
    errKind (simpleDocInit [PyVal.str "<b></b>".data, PyVal.str "lxml".data]
      false [("stag_end", PyVal.str ">".data)]) = some ErrKind.assertionError ∧
    ErrKind.assertionError ≠ ErrKind.typeError := by
  exact ⟨rfl, by decide⟩

/-! ### Claim C6: text with a non-string, non-number value -/

/-- Claim C6: `text(v)` for a value that is neither a string nor a number
(for instance `None` or a list) fails with a `TypeError`-kind error in
either mode — raised by the `NavigableString` constructor, or by the regex
split in newline-to-break mode — and the builder state is unchanged, so no
text node is appended for that value. -/
theorem text_non_string_raises (st : DocState) (v : PyVal)
    (hs : v.isStr = false) (hn : v.isNum = false) :
    ∃ m, textOp st v = .error (.typeError m) := by
  cases v with
  | str s => simp [PyVal.isStr] at hs
  | num n => simp [PyVal.isNum] at hn
  | pyNone =>
    cases hb : st.nl2br with
    | false =>
      exact ⟨"decoding to str: need a bytes-like object",
        by simp [textOp, textValNodes, hb, navigableString, Except.map]⟩
    | true =>
      exact ⟨"expected string or bytes-like object",
        by simp [textOp, textValNodes, hb, Except.map]⟩
  | pyList k =>
    cases hb : st.nl2br with
    | false =>
      exact ⟨"decoding to str: need a bytes-like object",
        by simp [textOp, textValNodes, hb, navigableString, Except.map]⟩
    | true =>
      exact ⟨"expected string or bytes-like object",
        by simp [textOp, textValNodes, hb, Except.map]⟩

/-- Witness for `text_non_string_raises`: `text(None)` on the empty builder
fails with a `TypeError`. -/
theorem text_non_string_raises_witness :
    PyVal.pyNone.isStr = false ∧ PyVal.pyNone.isNum = false ∧
    ∃ m, textOp ⟨[], [], false⟩ PyVal.pyNone = .error (.typeError m) :=
  ⟨rfl, rfl, text_non_string_raises ⟨[], [], false⟩ PyVal.pyNone rfl rfl⟩

/-! ### Claim C3: the CDATA round trip -/

/-- The CDATA terminator, as a character list. -/
def sepChars : List Char := [']', ']', '>']

/-- Join pieces back with the terminator between them (the inverse of
`splitSep`, used to state its correctness). -/
def joinSep : List (List Char) → List Char
  | [] => []
  | [p] => p
  | p :: ps => p ++ sepChars ++ joinSep ps

theorem consHead_ne_nil (c : Char) (ps : List (List Char)) :
    consHead c ps ≠ [] := by
  cases ps <;> simp [consHead]

theorem splitSep_ne_nil (l : List Char) : splitSep l ≠ [] := by
  induction l using splitSep.induct with
  | case1 rest ih => simp [splitSep]
  | case2 c rest h ih => rw [splitSep.eq_2 c rest h]; exact consHead_ne_nil c _
  | case3 => simp [splitSep]

theorem joinSep_consHead (c : Char) (ps : List (List Char)) (h : ps ≠ []) :
    joinSep (consHead c ps) = c :: joinSep ps := by
  match ps with
  | [] => exact absurd rfl h
  | [q] => rfl
  | q :: q' :: qs => simp [consHead, joinSep]

theorem joinSep_splitSep (l : List Char) : joinSep (splitSep l) = l := by
  induction l using splitSep.induct with
  | case1 rest ih =>
    rw [splitSep.eq_1]
    cases hq : splitSep rest with
    | nil => exact absurd hq (splitSep_ne_nil rest)
    | cons q qs =>
      rw [hq] at ih
      simp [joinSep, sepChars, ← ih]
  | case2 c rest h ih =>
    rw [splitSep.eq_2 c rest h,
      joinSep_consHead c (splitSep rest) (splitSep_ne_nil rest), ih]
  | case3 => rfl

theorem splitSep_head_prefix (l : List Char) (q : List Char)
    (qs : List (List Char)) (h : splitSep l = q :: qs) :
    ∃ x, l = q ++ x := by
  have hl := joinSep_splitSep l
  rw [h] at hl
  cases qs with
  | nil => exact ⟨[], by simp [joinSep] at hl; simp [hl]⟩
  | cons q' qs' =>
    exact ⟨sepChars ++ joinSep (q' :: qs'), by simp [joinSep] at hl; simp [← hl]⟩

theorem splitSep_pieces_noSep (l : List Char) :
    ∀ p ∈ splitSep l, hasSep p = false := by
  induction l using splitSep.induct with
  | case1 rest ih =>
    rw [splitSep.eq_1]
    intro p hp
    rcases List.mem_cons.mp hp with hp | hp
    · rw [hp]; rfl
    · exact ih p hp
  | case2 c rest h ih =>
    rw [splitSep.eq_2 c rest h]
    cases hq : splitSep rest with
    | nil => exact absurd hq (splitSep_ne_nil rest)
    | cons q qs =>
      intro p hp
      simp only [consHead, List.mem_cons] at hp
      rcases hp with hp | hp
      · subst hp
        have hguard : ∀ (t : List Char), c = ']' → q = ']' :: '>' :: t → False := by
          intro t hc hqshape
          obtain ⟨x, hx⟩ := splitSep_head_prefix rest q qs hq
          rw [hqshape] at hx
          exact h (t ++ x) hc (by simpa using hx)
        rw [hasSep.eq_2 c q hguard]
        exact ih q (by rw [hq]; exact List.mem_cons_self q qs)
      · exact ih p (by rw [hq]; exact List.mem_cons_of_mem q hp)
  | case3 =>
    intro p hp
    simp only [splitSep, List.mem_singleton] at hp
    rw [hp]; rfl

theorem hasSep_append_brackets (p : List Char) (h : hasSep p = false) :
    hasSep (p ++ [']', ']']) = false := by
  induction p using hasSep.induct with
  | case1 t => rw [hasSep.eq_1] at h; cases h
  | case2 c rest hg ih =>
    rw [hasSep.eq_2 c rest hg] at h
    have hguard : ∀ (t : List Char), c = ']' →
        rest ++ [']', ']'] = ']' :: '>' :: t → False := by
      intro t hc hshape
      match rest, hshape with
      | [], hshape => simp at hshape
      | [d], hshape => simp at hshape
      | d :: e :: rest', hshape =>
        simp only [List.cons_append, List.cons.injEq] at hshape
        exact hg rest' hc (by rw [hshape.1, hshape.2.1])
    rw [List.cons_append, hasSep.eq_2 c (rest ++ [']', ']']) hguard]
    exact ih h
  | case3 => rfl

theorem hasSep_gt_cons (p : List Char) (h : hasSep p = false) :
    hasSep ('>' :: p) = false := by
  have hguard : ∀ (t : List Char), '>' = ']' → p = ']' :: '>' :: t → False := by
    intro t hc
    cases hc
  rw [hasSep.eq_2 '>' p hguard]
  exact h

theorem cdataRest_noSep (ps : List (List Char))
    (h : ∀ p ∈ ps, hasSep p = false) :
    ∀ s ∈ cdataRest ps, hasSep s = false := by
  match ps with
  | [] => intro s hs; cases hs
  | [p] =>
    intro s hs
    simp only [cdataRest, List.mem_singleton] at hs
    rw [hs]
    exact hasSep_gt_cons p (h p (List.mem_singleton_self p))
  | p :: q :: qs =>
    intro s hs
    simp only [cdataRest, List.mem_cons] at hs
    rcases hs with hs | hs
    · rw [hs]
      exact hasSep_gt_cons _ (hasSep_append_brackets p
        (h p (List.mem_cons_self p _)))
    · exact cdataRest_noSep (q :: qs)
        (fun r hr => h r (List.mem_cons_of_mem p hr)) s hs

theorem cdataRest_flatten (ps : List (List Char)) (h : ps ≠ []) :
    (cdataRest ps).flatten = '>' :: joinSep ps := by
  match ps with
  | [] => exact absurd rfl h
  | [p] => simp [cdataRest, joinSep]
  | p :: q :: qs =>
    have ih := cdataRest_flatten (q :: qs) (by simp)
    simp only [cdataRest, List.flatten_cons, ih]
    simp [joinSep, sepChars]

/-- Claim C3: for every string, `cdata(s, safe=False)` emits at least one
CDATA section, no individual section's content contains the terminator
`]]>`, and the concatenation of all the sections' contents is exactly the
original string — including when it contains back-to-back `]]>`
terminators. -/
theorem cdata_round_trip (s : List Char) :
    1 ≤ (cdataSections s).length ∧
    (cdataSections s).flatten = s ∧
    (cdataSections s).all (fun sec => !(hasSep sec)) = true := by
  have hpieces := splitSep_pieces_noSep s
  have hjoin := joinSep_splitSep s
  cases hsplit : splitSep s with
  | nil => exact absurd hsplit (splitSep_ne_nil s)
  | cons p ps =>
    rw [hsplit] at hjoin
    cases ps with
    | nil =>
      refine ⟨by simp [cdataSections, hsplit], ?_, ?_⟩
      · simp only [cdataSections, hsplit, List.flatten, List.append_nil]
        simpa [joinSep] using hjoin
      · simp only [cdataSections, hsplit, List.all_cons, List.all_nil,
          Bool.and_true, Bool.not_eq_true']
        exact hpieces p (by rw [hsplit]; exact List.mem_singleton_self p)
    | cons q qs =>
      have hname : cdataSections s = (p ++ [']', ']']) :: cdataRest (q :: qs) := by
        simp [cdataSections, hsplit]
      refine ⟨by simp [hname], ?_, ?_⟩
      · rw [hname, List.flatten_cons,
          cdataRest_flatten (q :: qs) (by simp), ← hjoin]
        simp [joinSep, sepChars]
      · rw [hname]
        rw [List.all_eq_true]
        intro sec hsec
        simp only [List.mem_cons] at hsec
        simp only [Bool.not_eq_true']
        rcases hsec with hsec | hsec
        · rw [hsec]
          exact hasSep_append_brackets p
            (hpieces p (by rw [hsplit]; exact List.mem_cons_self p _))
        · refine cdataRest_noSep (q :: qs) ?_ sec hsec
          intro r hr
          exact hpieces r (by rw [hsplit]; exact List.mem_cons_of_mem p hr)

/-! ### Claim C4: newline-to-break mode -/

/-- Last piece of a split (the splits below are never empty). -/
def lastPiece : List (List Char) → List Char
  | [] => []
  | [p] => p
  | _ :: ps => lastPiece ps

theorem nlSplit_ne_nil (l : List Char) : nlSplit l ≠ [] := by
  induction l using nlSplit.induct with
  | case1 => simp [nlSplit]
  | case2 rest ih => simp [nlSplit]
  | case3 rest ih => simp [nlSplit]
  | case4 c rest h1 h2 ih =>
    rw [nlSplit.eq_4 c rest h1 h2]
    exact consHead_ne_nil c _

theorem consHead_length (c : Char) (ps : List (List Char)) (h : ps ≠ []) :
    (consHead c ps).length = ps.length := by
  cases ps with
  | nil => exact absurd rfl h
  | cons p rest => rfl

theorem interleaveSegs_consHead (c : Char) (ps seps : List (List Char))
    (h : ps ≠ []) :
    interleaveSegs (consHead c ps) seps = c :: interleaveSegs ps seps := by
  match ps, seps with
  | [], _ => exact absurd rfl h
  | [q], [] => rfl
  | [q], p :: restSeps => rfl
  | q :: q' :: qs, [] => simp [consHead, interleaveSegs]
  | q :: q' :: qs, p :: restSeps => simp [consHead, interleaveSegs]

theorem emitSegs_structure (segs : List (List Char)) (h : segs ≠ []) :
    emitSegs segs =
      (segs.dropLast.map (fun seg => [Node.textN seg, brNode])).flatten
        ++ [.textN (lastPiece segs)] := by
  match segs with
  | [] => exact absurd rfl h
  | [s] => simp [emitSegs, lastPiece]
  | s :: t :: rest =>
    have ih := emitSegs_structure (t :: rest) (by simp)
    simp only [emitSegs, ih, lastPiece, List.dropLast_cons₂, List.map_cons,
      List.flatten_cons]
    simp

theorem nlSplit_correct (l : List Char) :
    interleaveSegs (nlSplit l) (nlSeps l) = l ∧
    (nlSplit l).length = (nlSeps l).length + 1 ∧
    (nlSeps l).all (fun p => p == ['\n'] || p == ['\r', '\n']) = true ∧
    (nlSplit l).all (fun seg => !(seg.contains '\n')) = true := by
  induction l using nlSplit.induct with
  | case1 => refine ⟨rfl, rfl, rfl, ?_⟩; decide
  | case2 rest ih =>
    obtain ⟨ih1, ih2, ih3, ih4⟩ := ih
    cases hq : nlSplit rest with
    | nil => exact absurd hq (nlSplit_ne_nil rest)
    | cons q qs =>
      rw [hq] at ih1 ih2 ih4
      refine ⟨?_, ?_, ?_, ?_⟩
      · simp only [nlSplit, nlSeps, hq, interleaveSegs]
        simp [ih1]
      · simp only [nlSplit, nlSeps, hq] at *
        simpa using ih2
      · simp only [nlSeps, List.all_cons, ih3]
        decide
      · simp only [nlSplit, hq, List.all_cons, ih4, Bool.and_true]
        decide
  | case3 rest ih =>
    obtain ⟨ih1, ih2, ih3, ih4⟩ := ih
    cases hq : nlSplit rest with
    | nil => exact absurd hq (nlSplit_ne_nil rest)
    | cons q qs =>
      rw [hq] at ih1 ih2 ih4
      refine ⟨?_, ?_, ?_, ?_⟩
      · simp only [nlSplit, nlSeps, hq, interleaveSegs]
        simp [ih1]
      · simp only [nlSplit, nlSeps, hq] at *
        simpa using ih2
      · simp only [nlSeps, List.all_cons, ih3]
        decide
      · simp only [nlSplit, hq, List.all_cons, ih4, Bool.and_true]
        decide
  | case4 c rest h1 h2 ih =>
    obtain ⟨ih1, ih2, ih3, ih4⟩ := ih
    cases hq : nlSplit rest with
    | nil => exact absurd hq (nlSplit_ne_nil rest)
    | cons q qs =>
      rw [hq] at ih1 ih2 ih4
      refine ⟨?_, ?_, ?_, ?_⟩
      · rw [nlSplit.eq_4 c rest h1 h2, nlSeps.eq_4 c rest h1 h2, hq,
          interleaveSegs_consHead c (q :: qs) (nlSeps rest) (by simp), ih1]
      · rw [nlSplit.eq_4 c rest h1 h2, nlSeps.eq_4 c rest h1 h2, hq,
          consHead_length c (q :: qs) (by simp)]
        exact ih2
      · rw [nlSeps.eq_4 c rest h1 h2]
        exact ih3
      · rw [nlSplit.eq_4 c rest h1 h2, hq]
        simp only [consHead, List.all_cons] at ih4 ⊢
        obtain ⟨ihq, ihqs⟩ := Bool.and_eq_true_iff.mp ih4
        rw [ihqs, Bool.and_true]
        simp only [List.contains_cons, Bool.not_or]
        rw [Bool.and_eq_true_iff]
        constructor
        · simp only [Bool.not_eq_true', beq_eq_false_iff_ne, ne_eq]
          intro hc
          exact h2 hc.symm
        · exact ihq

/-- Claim C4: in newline-to-break mode, `text` splits the value on `\n` or
`\r\n` (the interleaving of the emitted segments with the consumed
separators — each of which is `\n` or `\r\n` — reconstructs the value, and
no segment retains a `\n`); every segment except the last becomes a text
node immediately followed by a line-break element and the final segment
becomes a trailing text node even when empty; and concretely, writing
`"\n\n\n"` yields the node sequence `[text "", br, text "", br, text "",
br, text ""]` — three line-break elements, consecutive in the rendered
output because the interleaved text nodes are all empty, followed by a
trailing empty text node. -/
theorem nl2br_text_split (s : List Char) :
    (emitSegs (nlSplit s) =
      ((nlSplit s).dropLast.map (fun seg => [Node.textN seg, brNode])).flatten
        ++ [.textN (lastPiece (nlSplit s))]) ∧
    interleaveSegs (nlSplit s) (nlSeps s) = s ∧
    (nlSplit s).length = (nlSeps s).length + 1 ∧
    (nlSeps s).all (fun p => p == ['\n'] || p == ['\r', '\n']) = true ∧
    (nlSplit s).all (fun seg => !(seg.contains '\n')) = true ∧
    textValNodes true (.str ['\n', '\n', '\n']) =
      .ok [.textN [], brNode, .textN [], brNode, .textN [], brNode,
        .textN []] ∧
    (emitSegs (nlSplit ['\n', '\n', '\n'])).filter Node.isElem =
      [brNode, brNode, brNode] ∧
    (emitSegs (nlSplit ['\n', '\n', '\n'])).getLast? = some (.textN []) := by
  obtain ⟨h1, h2, h3, h4⟩ := nlSplit_correct s
  exact ⟨emitSegs_structure (nlSplit s) (nlSplit_ne_nil s), h1, h2, h3, h4,
    rfl, rfl, rfl⟩

/-! ### Claim C8: the class-set helpers (src/bs4tag/simpledoc.py:445)

`add_class`, `discard_class` and `toggle_class` act on
`self.current_tag.attrs` — the pending attribute dict of the innermost open
scope (on the `DocumentRoot` sentinel the attribute access itself raises
`DocumentRootError`).  `_get_classes` reads the `class` key (absent means
the empty set) and splits its string value on whitespace runs into a
Python set; `_set_classes` writes the set back space-joined, or deletes
the key when the set is empty.  Python sets are embedded as duplicate-free
lists whose order stands for the set's (arbitrary) iteration order. -/

/-- Whitespace for Python's argumentless `str.split` (the ASCII whitespace
characters; the rarer Unicode space code points are not modelled). -/
def isPySpace (c : Char) : Bool :=
  c = ' ' || c = '\t' || c = '\n' || c = '\r' || c = '\x0b' || c = '\x0c'

/-- Scanner of Python's argumentless `str.split()`.  The flag says whether
the scan is currently inside a token, in which case the first entry of the
result is the continuation of that token. -/
def splitWsF : List Char → Bool → List (List Char)
  | [], inTok => if inTok then [[]] else []
  | c :: rest, inTok =>
      if isPySpace c then
        if inTok then [] :: splitWsF rest false else splitWsF rest false
      else consHead c (splitWsF rest true)

/-- Python `str.split()` scanning between tokens. -/
def splitWsGap (l : List Char) : List (List Char) := splitWsF l false

/-- Python `str.split()` scanning inside a token. -/
def splitWsTok (l : List Char) : List (List Char) := splitWsF l true

/-- Python `s.split()`: the whitespace-run-separated tokens of `s`, without
empty tokens. -/
def splitWs (l : List Char) : List (List Char) := splitWsGap l

/-- Deduplication keeping first occurrences, accumulating the tokens seen
so far. -/
def dedupSeen : List (List Char) → List (List Char) → List (List Char)
  | [], _ => []
  | t :: ts, seen =>
      if t ∈ seen then dedupSeen ts seen else t :: dedupSeen ts (t :: seen)

/-- Deduplication keeping first occurrences: embeds the passage from the
token list to the Python set `set(s.split())`. -/
def dedupKF (ts : List (List Char)) : List (List Char) :=
  dedupSeen ts []

/-- Python `set.union` with an iterable of tokens. -/
def pyUnion (t cs : List (List Char)) : List (List Char) :=
  t ++ (dedupKF cs).filter (fun c => c ∉ t)

/-- Python `set.difference` with an iterable of tokens. -/
def pyDifference (t cs : List (List Char)) : List (List Char) :=
  t.filter (fun x => x ∉ cs)

/-- Python `set.add`. -/
def pySetAdd (t : List (List Char)) (e : List Char) : List (List Char) :=
  if e ∈ t then t else t ++ [e]

/-- Python `set.discard`. -/
def pySetDiscard (t : List (List Char)) (e : List Char) : List (List Char) :=
  t.filter (fun x => x ≠ e)

/-- Python `' '.join` over the set's iteration order. -/
def joinSpace : List (List Char) → List Char
  | [] => []
  | [t] => t
  | t :: ts => t ++ ' ' :: joinSpace ts

/-- Model of `SimpleDoc._get_classes`: an absent `class` attribute is the
empty set; a string value is split on whitespace into a set; a non-string
value has no `split` method, so the call raises `AttributeError`. -/
def pyGetClasses (attrs : List (String × AttrVal)) :
    Except PyError (List (List Char)) :=
  match lookupA attrs "class" with
  | none => .ok []
  | some (.strV s) => .ok (dedupKF (splitWs s))
  | some _ => .error (.attributeError "object has no attribute split")

/-- Model of `SimpleDoc._set_classes`: a non-empty set is written back
space-joined, an empty one removes the attribute (swallowing `KeyError`). -/
def pySetClasses (attrs : List (String × AttrVal)) (ts : List (List Char)) :
    List (String × AttrVal) :=
  if ts.isEmpty then dictRemove attrs "class"
  else dictInsert attrs "class" (.strV (joinSpace ts))

/-- Model of `SimpleDoc.add_class`: union the current class set with the
given class names and write the result back. -/
def addClassOp (attrs : List (String × AttrVal)) (cs : List (List Char)) :
    Except PyError (List (String × AttrVal)) :=
  (pyGetClasses attrs).map (fun t => pySetClasses attrs (pyUnion t cs))

/-- Model of `SimpleDoc.discard_class`: remove the given class names from
the current class set and write the result back. -/
def discardClassOp (attrs : List (String × AttrVal)) (cs : List (List Char)) :
    Except PyError (List (String × AttrVal)) :=
  (pyGetClasses attrs).map (fun t => pySetClasses attrs (pyDifference t cs))

/-- Model of `SimpleDoc.toggle_class`: add the element to the current class
set when `active` is truthy, discard it otherwise, and write the result
back. -/
def toggleClassOp (attrs : List (String × AttrVal)) (e : List Char)
    (active : Bool) : Except PyError (List (String × AttrVal)) :=
  (pyGetClasses attrs).map (fun t =>
    pySetClasses attrs (if active then pySetAdd t e else pySetDiscard t e))

/-- The class-token set currently stored in an attribute dict (empty when
the helpers would raise). -/
def classTokens (attrs : List (String × AttrVal)) : Finset (List Char) :=
  ((pyGetClasses attrs).toOption.getD []).toFinset

/-- Whether a token is a valid single class name: non-empty and free of
whitespace. -/
def cleanTok (t : List Char) : Bool :=
  !t.isEmpty && t.all (fun c => !isPySpace c)

/-- Whether every token of a list is a valid single class name. -/
def cleanToks (ts : List (List Char)) : Bool :=
  ts.all cleanTok

/-- The starting attribute dict of the spec's concrete example:
`class="news"`. -/
def c8Start : List (String × AttrVal) := [("class", .strV "news".data)]

/-- First operation of the spec's concrete example:
`add_class('highlight', 'today')`. -/
def c8Add (a : List (String × AttrVal)) :
    Except PyError (List (String × AttrVal)) :=
  addClassOp a ["highlight".data, "today".data]

/-- Second operation of the spec's concrete example:
`discard_class('news')`. -/
def c8Discard (a : List (String × AttrVal)) :
    Except PyError (List (String × AttrVal)) :=
  discardClassOp a ["news".data]

/-- Third operation of the spec's concrete example:
`toggle_class('active', True)`. -/
def c8Toggle (a : List (String × AttrVal)) :
    Except PyError (List (String × AttrVal)) :=
  toggleClassOp a "active".data true

/-- Every order in which the three operations of the concrete example can
be run. -/
def c8Orders :
    List (List (List (String × AttrVal) →
      Except PyError (List (String × AttrVal)))) :=
  [[c8Add, c8Discard, c8Toggle], [c8Add, c8Toggle, c8Discard],
   [c8Discard, c8Add, c8Toggle], [c8Discard, c8Toggle, c8Add],
   [c8Toggle, c8Add, c8Discard], [c8Toggle, c8Discard, c8Add]]

/-- Run a sequence of dict transformers left to right. -/
def runClassOps
    (ops : List (List (String × AttrVal) →
      Except PyError (List (String × AttrVal))))
    (a : List (String × AttrVal)) :
    Except PyError (List (String × AttrVal)) :=
  ops.foldl (fun acc f => acc.bind f) (.ok a)

/-- The class-token target set of the spec's concrete example. -/
def c8Target : Finset (List Char) :=
  {"highlight".data, "today".data, "active".data}

theorem splitWsTok_ne_nil (l : List Char) : splitWsTok l ≠ [] := by
  cases l with
  | nil => simp [splitWsTok, splitWsF]
  | cons c rest =>
    by_cases hc : isPySpace c
    · simp [splitWsTok, splitWsF, hc]
    · simp only [splitWsTok, splitWsF, hc, Bool.false_eq_true, if_false]
      exact consHead_ne_nil c _

theorem splitWsTok_append (t r : List Char)
    (h : t.all (fun c => !isPySpace c) = true) (p : List Char)
    (ps : List (List Char)) (hr : splitWsTok r = p :: ps) :
    splitWsTok (t ++ r) = (t ++ p) :: ps := by
  induction t with
  | nil => simpa using hr
  | cons c t' ih =>
    simp only [List.all_cons, Bool.and_eq_true, Bool.not_eq_true'] at h
    obtain ⟨hc, ht'⟩ := h
    have htail : splitWsTok (t' ++ r) = (t' ++ p) :: ps := ih ht'
    show splitWsF (c :: (t' ++ r)) true = ((c :: t') ++ p) :: ps
    simp only [splitWsF, hc, Bool.false_eq_true, if_false]
    rw [show splitWsF (t' ++ r) true = splitWsTok (t' ++ r) from rfl, htail]
    simp [consHead]

theorem splitWsGap_token (t r : List Char) (hne : t ≠ [])
    (h : t.all (fun c => !isPySpace c) = true) (p : List Char)
    (ps : List (List Char)) (hr : splitWsTok r = p :: ps) :
    splitWsGap (t ++ r) = (t ++ p) :: ps := by
  match t with
  | [] => exact absurd rfl hne
  | c :: t' =>
    simp only [List.all_cons, Bool.and_eq_true, Bool.not_eq_true'] at h
    obtain ⟨hc, ht'⟩ := h
    have htail : splitWsTok (t' ++ r) = (t' ++ p) :: ps :=
      splitWsTok_append t' r ht' p ps hr
    show splitWsF (c :: (t' ++ r)) false = ((c :: t') ++ p) :: ps
    simp only [splitWsF, hc, Bool.false_eq_true, if_false]
    rw [show splitWsF (t' ++ r) true = splitWsTok (t' ++ r) from rfl, htail]
    simp [consHead]

theorem splitWs_joinSpace (ts : List (List Char)) (h : cleanToks ts = true) :
    splitWs (joinSpace ts) = ts := by
  match ts with
  | [] => rfl
  | [t] =>
    simp only [cleanToks, List.all_cons, List.all_nil, Bool.and_true,
      cleanTok, Bool.and_eq_true, Bool.not_eq_true'] at h
    obtain ⟨hne, hall⟩ := h
    have := splitWsGap_token t [] (by simpa [List.isEmpty_iff] using hne)
      hall [] [] rfl
    simpa [splitWs, joinSpace] using this
  | t :: t' :: ts' =>
    have hh : cleanTok t = true ∧ cleanToks (t' :: ts') = true := by
      simpa [cleanToks] using h
    have ih := splitWs_joinSpace (t' :: ts') hh.2
    have hclean := hh.1
    simp only [cleanTok, Bool.and_eq_true, Bool.not_eq_true'] at hclean
    obtain ⟨hne, hall⟩ := hclean
    have hgap : splitWsF (joinSpace (t' :: ts')) false = t' :: ts' := ih
    have htok : splitWsTok (' ' :: joinSpace (t' :: ts')) = [] :: (t' :: ts') := by
      simp only [splitWsTok, splitWsF, isPySpace]
      simp [hgap]
    have := splitWsGap_token t (' ' :: joinSpace (t' :: ts'))
      (by simpa [List.isEmpty_iff] using hne) hall [] (t' :: ts') htok
    simpa [splitWs, joinSpace] using this

theorem splitWsF_clean (l : List Char) :
    cleanToks (splitWsF l false) = true ∧
    (∀ p ps, splitWsF l true = p :: ps →
      p.all (fun c => !isPySpace c) = true ∧ cleanToks ps = true) := by
  induction l with
  | nil =>
    refine ⟨rfl, ?_⟩
    intro p ps hp
    simp only [splitWsF, if_true] at hp
    cases hp
    exact ⟨rfl, rfl⟩
  | cons c rest ih =>
    obtain ⟨ihg, iht⟩ := ih
    by_cases hc : isPySpace c
    · constructor
      · simpa [splitWsF, hc] using ihg
      · intro p ps hp
        simp only [splitWsF, hc, if_true] at hp
        cases hp
        exact ⟨rfl, ihg⟩
    · cases hq : splitWsF rest true with
      | nil => exact absurd hq (splitWsTok_ne_nil rest)
      | cons q qs =>
        obtain ⟨hqall, hqs⟩ := iht q qs hq
        have hclean : cleanTok (c :: q) = true := by
          simp only [cleanTok, List.isEmpty_cons, Bool.not_false,
            Bool.true_and, List.all_cons, Bool.and_eq_true,
            Bool.not_eq_true']
          constructor
          · simpa using hc
          · rw [List.all_eq_true] at hqall ⊢
            intro x hx
            simpa using hqall x hx
        constructor
        · simp only [splitWsF, hc, Bool.false_eq_true, if_false, hq, consHead,
            cleanToks, List.all_cons]
          rw [Bool.and_eq_true]
          exact ⟨hclean, hqs⟩
        · intro p ps hp
          simp only [splitWsF, hc, Bool.false_eq_true, if_false, hq,
            consHead] at hp
          cases hp
          constructor
          · simp only [List.all_cons, Bool.and_eq_true, Bool.not_eq_true']
            constructor
            · simpa using hc
            · exact hqall
          · exact hqs

theorem mem_dedupSeen (ts : List (List Char)) (seen : List (List Char))
    (x : List Char) : x ∈ dedupSeen ts seen ↔ x ∈ ts ∧ x ∉ seen := by
  induction ts generalizing seen with
  | nil => simp [dedupSeen]
  | cons t rest ih =>
    by_cases ht : t ∈ seen
    · rw [dedupSeen, if_pos ht, ih]
      simp only [List.mem_cons]
      constructor
      · rintro ⟨hx, hs⟩; exact ⟨.inr hx, hs⟩
      · rintro ⟨hx | hx, hs⟩
        · exact absurd (hx ▸ ht) hs
        · exact ⟨hx, hs⟩
    · rw [dedupSeen, if_neg ht]
      simp only [List.mem_cons, ih, List.mem_cons]
      constructor
      · rintro (hx | ⟨hx, hs⟩)
        · exact ⟨.inl hx, hx ▸ ht⟩
        · exact ⟨.inr hx, fun hc => hs (.inr hc)⟩
      · rintro ⟨hx | hx, hs⟩
        · exact .inl hx
        · by_cases hxt : x = t
          · exact .inl hxt
          · refine .inr ⟨hx, fun hc => ?_⟩
            rcases hc with hc | hc
            · exact hxt hc
            · exact hs hc

theorem mem_dedupKF (ts : List (List Char)) (x : List Char) :
    x ∈ dedupKF ts ↔ x ∈ ts := by
  rw [dedupKF, mem_dedupSeen]
  simp

theorem toFinset_dedupKF (ts : List (List Char)) :
    (dedupKF ts).toFinset = ts.toFinset := by
  ext x
  simp [mem_dedupKF]

theorem cleanToks_dedupKF (ts : List (List Char))
    (h : cleanToks ts = true) : cleanToks (dedupKF ts) = true := by
  rw [cleanToks, List.all_eq_true] at h ⊢
  intro x hx
  exact h x ((mem_dedupKF ts x).mp hx)

theorem toFinset_pyUnion (t cs : List (List Char)) :
    (pyUnion t cs).toFinset = t.toFinset ∪ cs.toFinset := by
  ext x
  simp only [pyUnion, List.toFinset_append, Finset.mem_union,
    List.mem_toFinset, List.mem_filter, mem_dedupKF, decide_eq_true_eq]
  constructor
  · rintro (hx | ⟨hx, _⟩)
    · exact .inl hx
    · exact .inr hx
  · rintro (hx | hx)
    · exact .inl hx
    · by_cases hxt : x ∈ t
      · exact .inl hxt
      · exact .inr ⟨hx, by simpa using hxt⟩

theorem toFinset_pyDifference (t cs : List (List Char)) :
    (pyDifference t cs).toFinset = t.toFinset \ cs.toFinset := by
  ext x
  simp only [pyDifference, List.mem_toFinset, List.mem_filter,
    Finset.mem_sdiff, decide_eq_true_eq]

theorem toFinset_pySetAdd (t : List (List Char)) (e : List Char) :
    (pySetAdd t e).toFinset = insert e t.toFinset := by
  unfold pySetAdd
  by_cases he : e ∈ t
  · rw [if_pos he]
    ext x
    simp only [List.mem_toFinset, Finset.mem_insert]
    constructor
    · exact .inr
    · rintro (hx | hx)
      · exact hx ▸ he
      · exact hx
  · rw [if_neg he]
    ext x
    simp only [List.toFinset_append, List.mem_toFinset, Finset.mem_union,
      Finset.mem_insert, List.toFinset_cons, List.toFinset_nil,
      insert_emptyc_eq, Finset.mem_singleton]
    exact or_comm

theorem toFinset_pySetDiscard (t : List (List Char)) (e : List Char) :
    (pySetDiscard t e).toFinset = t.toFinset.erase e := by
  ext x
  simp only [pySetDiscard, List.mem_toFinset, List.mem_filter,
    Finset.mem_erase, decide_eq_true_eq, ne_eq]
  tauto

theorem cleanToks_sublist_pres (t : List (List Char))
    (h : cleanToks t = true) (f : List Char → Bool) :
    cleanToks (t.filter f) = true := by
  rw [cleanToks, List.all_eq_true] at h ⊢
  intro x hx
  exact h x (List.mem_of_mem_filter hx)

theorem cleanToks_pyUnion (t cs : List (List Char))
    (h1 : cleanToks t = true) (h2 : cleanToks cs = true) :
    cleanToks (pyUnion t cs) = true := by
  rw [cleanToks, List.all_eq_true] at h1 h2 ⊢
  intro x hx
  rcases List.mem_append.mp hx with hx | hx
  · exact h1 x hx
  · exact h2 x ((mem_dedupKF cs x).mp (List.mem_of_mem_filter hx))

theorem cleanToks_pySetAdd (t : List (List Char)) (e : List Char)
    (h1 : cleanToks t = true) (he : cleanTok e = true) :
    cleanToks (pySetAdd t e) = true := by
  unfold pySetAdd
  by_cases hm : e ∈ t
  · rw [if_pos hm]; exact h1
  · rw [if_neg hm]
    rw [cleanToks, List.all_eq_true] at h1 ⊢
    intro x hx
    rcases List.mem_append.mp hx with hx | hx
    · exact h1 x hx
    · rw [List.mem_singleton.mp hx]; exact he

theorem pySetClasses_spec (attrs : List (String × AttrVal))
    (ts : List (List Char)) (h : cleanToks ts = true) :
    classTokens (pySetClasses attrs ts) = ts.toFinset ∧
    (lookupA (pySetClasses attrs ts) "class" = none ↔ ts = []) := by
  cases hts : ts with
  | nil =>
    rw [pySetClasses]
    simp only [List.isEmpty_nil, if_true]
    refine ⟨?_, by simp [lookupA_dictRemove_self]⟩
    simp [classTokens, pyGetClasses, lookupA_dictRemove_self,
      Except.toOption, Option.getD]
  | cons t rest =>
    rw [pySetClasses]
    simp only [List.isEmpty_cons, Bool.false_eq_true, if_false]
    have hlook := lookupA_dictInsert_self attrs "class"
      (AttrVal.strV (joinSpace (t :: rest)))
    have hgetNew : pyGetClasses
        (dictInsert attrs "class" (AttrVal.strV (joinSpace (t :: rest)))) =
        .ok (dedupKF (splitWs (joinSpace (t :: rest)))) := by
      rw [pyGetClasses, hlook]
    constructor
    · simp only [classTokens, hgetNew, Except.toOption, Option.getD]
      rw [show splitWs (joinSpace (t :: rest)) = t :: rest from
        splitWs_joinSpace (t :: rest) (hts ▸ h)]
      exact toFinset_dedupKF (t :: rest)
    · rw [hlook]
      simp

theorem pyGetClasses_clean (attrs : List (String × AttrVal))
    (t0 : List (List Char)) (h : pyGetClasses attrs = .ok t0) :
    cleanToks t0 = true := by
  rw [pyGetClasses] at h
  cases hl : lookupA attrs "class" with
  | none => rw [hl] at h; cases h; rfl
  | some v =>
    rw [hl] at h
    cases v with
    | strV s =>
      cases h
      exact cleanToks_dedupKF (splitWs s) (splitWsF_clean s).1
    | numV n => cases h
    | noValue => cases h
    | badV => cases h

theorem classTokens_of_get (attrs : List (String × AttrVal))
    (t0 : List (List Char)) (h : pyGetClasses attrs = .ok t0) :
    classTokens attrs = t0.toFinset := by
  simp [classTokens, h, Except.toOption, Option.getD]

/-- Claim C8: the class-set helpers read the current insertion point's
`class` attribute (absent meaning the empty set, via `pyGetClasses`), apply
set union (`add_class`), set difference (`discard_class`) or conditional
membership (`toggle_class`), and write the result back as a space-joined
`class` attribute exactly when the resulting set is non-empty, removing the
attribute entirely when it is empty; and concretely, starting from
`class="news"`, adding `{highlight, today}`, discarding `news` and toggling
`active` on yields the token set `{highlight, today, active}` in every one
of the six operation orders. -/
theorem class_set_helpers (attrs : List (String × AttrVal))
    (cs : List (List Char)) (e : List Char) (t0 : List (List Char))
    (hget : pyGetClasses attrs = .ok t0)
    (hcs : cleanToks cs = true) (he : cleanTok e = true) :
    (addClassOp attrs cs = .ok (pySetClasses attrs (pyUnion t0 cs)) ∧
      classTokens (pySetClasses attrs (pyUnion t0 cs)) =
        classTokens attrs ∪ cs.toFinset ∧
      (lookupA (pySetClasses attrs (pyUnion t0 cs)) "class" = none ↔
        classTokens attrs ∪ cs.toFinset = ∅)) ∧
    (discardClassOp attrs cs = .ok (pySetClasses attrs (pyDifference t0 cs)) ∧
      classTokens (pySetClasses attrs (pyDifference t0 cs)) =
        classTokens attrs \ cs.toFinset ∧
      (lookupA (pySetClasses attrs (pyDifference t0 cs)) "class" = none ↔
        classTokens attrs \ cs.toFinset = ∅)) ∧
    (toggleClassOp attrs e true = .ok (pySetClasses attrs (pySetAdd t0 e)) ∧
      classTokens (pySetClasses attrs (pySetAdd t0 e)) =
        insert e (classTokens attrs)) ∧
    (toggleClassOp attrs e false =
        .ok (pySetClasses attrs (pySetDiscard t0 e)) ∧
      classTokens (pySetClasses attrs (pySetDiscard t0 e)) =
        (classTokens attrs).erase e) ∧
    (c8Orders.all (fun l =>
      (runClassOps l c8Start).toOption.map classTokens == some c8Target))
      = true := by
  have ht0 : cleanToks t0 = true := pyGetClasses_clean attrs t0 hget
  have htok := classTokens_of_get attrs t0 hget
  refine ⟨⟨?_, ?_, ?_⟩, ⟨?_, ?_, ?_⟩, ⟨?_, ?_⟩, ⟨?_, ?_⟩, ?_⟩
  · simp [addClassOp, hget, Except.map]
  · rw [(pySetClasses_spec attrs (pyUnion t0 cs)
      (cleanToks_pyUnion t0 cs ht0 hcs)).1, toFinset_pyUnion, htok]
  · rw [(pySetClasses_spec attrs (pyUnion t0 cs)
      (cleanToks_pyUnion t0 cs ht0 hcs)).2, htok, ← toFinset_pyUnion]
    exact (List.toFinset_eq_empty_iff _).symm
  · simp [discardClassOp, hget, Except.map]
  · rw [(pySetClasses_spec attrs (pyDifference t0 cs)
      (cleanToks_sublist_pres t0 ht0 _)).1, toFinset_pyDifference, htok]
  · rw [(pySetClasses_spec attrs (pyDifference t0 cs)
      (cleanToks_sublist_pres t0 ht0 _)).2, htok, ← toFinset_pyDifference]
    exact (List.toFinset_eq_empty_iff _).symm
  · simp [toggleClassOp, hget, Except.map]
  · rw [(pySetClasses_spec attrs (pySetAdd t0 e)
      (cleanToks_pySetAdd t0 e ht0 he)).1, toFinset_pySetAdd, htok]
  · simp [toggleClassOp, hget, Except.map]
  · rw [(pySetClasses_spec attrs (pySetDiscard t0 e)
      (cleanToks_sublist_pres t0 ht0 _)).1, toFinset_pySetDiscard, htok]
  · decide

/-- Witness for `class_set_helpers`: the concrete example starts from
`class="news"` (whose class set reads back as `{news}`), and adding
`{highlight, today}` there writes back a `class` attribute whose token set
is `{news, highlight, today}`. -/
theorem class_set_helpers_witness :
    pyGetClasses c8Start = .ok ["news".data] ∧
    cleanToks ["highlight".data, "today".data] = true ∧
    cleanTok "active".data = true ∧
    addClassOp c8Start ["highlight".data, "today".data] =
      .ok (pySetClasses c8Start
        (pyUnion ["news".data] ["highlight".data, "today".data])) :=
  ⟨rfl, by decide, by decide,
    (class_set_helpers c8Start ["highlight".data, "today".data]
      "active".data ["news".data] rfl (by decide) (by decide)).1.1⟩

end Bs4tag
